import Mathlib

/-!
Verification of the chain-scanning core of the uni-burn-telegram-bot
repository (TypeScript), shallowly embedded in Lean 4.

Sources embedded here:
  - `src/ethereumMonitor.ts` : `fetchLogsInChunks`, `fetchBurnsSinceBlock`
    (the variant with parallel enrichment via `Promise.all`);
  - `src/bot.ts` : `processNewBurns` (the poll cycle);
  - `src/backfill.ts` : `backfillBurns`, `processAndSaveBurn`;
  - `src/database.ts` : `saveBurn` (`INSERT ... ON CONFLICT (tx_hash) DO
    NOTHING`), `setLastProcessedBlock`, `isBurnNotified`.

Modelling conventions:
  - block numbers, transaction hashes and addresses are `Nat` (the code
    uses `bigint` / hex strings; only equality and ordering matter here);
  - raw token amounts are `Nat` (the code keeps arbitrary-precision
    `bigint`, never floats);
  - a possibly-missing decoded log field (`log.args.value`,
    `log.args.from`) is an `Option Nat`; JavaScript truthiness of a
    `bigint` field is `false` for both a missing field and the value `0n`,
    which `jsTruthyValue` reproduces;
  - the remote provider is an ideal log source: a fixed list of raw logs
    per sink, and `getLogs(lo, hi)` returns exactly the logs whose block
    lies in `[lo, hi]`, in list order;
  - transaction-detail lookups (`getTransaction` + `getTransactionReceipt`)
    are an oracle `Nat → Option TxData`, `none` modelling a rejected
    promise; `getBlockTimestamp` is total because the source catches its
    own failure and falls back to an estimate;
  - notification delivery (`sendBurnAlert`) is an oracle `Nat → Bool`
    keyed by transaction hash, `false` modelling a thrown delivery error;
  - network pacing (`sleep`) and log output are dropped.
-/

/-- One decoded ERC-20 Transfer log as returned by the provider
(`TransferLog` in `ethereumMonitor.ts`). `argsFrom`/`argsValue` are the
decoded `log.args.from` / `log.args.value`, `none` when the field is
missing from a malformed response. -/
structure TransferLog where
  transactionHash : Nat
  blockNumber : Nat
  argsFrom : Option Nat
  argsValue : Option Nat
deriving DecidableEq, Repr

/-- The burn destination sink: the Firepit contract or the 0xdead
address (`"firepit" | "dead"` in the source). -/
inductive Dest where
  | firepit
  | dead
deriving DecidableEq, Repr

/-- JavaScript truthiness of the decoded `log.args.value` field: a
missing field and the bigint `0n` are both falsy. -/
def jsTruthyValue : Option Nat → Bool
  | none => false
  | some v => v != 0

/-- JavaScript truthiness of the decoded `log.args.from` field: missing
is falsy, any address present is truthy. -/
def jsTruthyAddr : Option Nat → Bool
  | none => false
  | some _ => true

/-- An ideal log source for one sink: `getLogs` over `[lo, hi]` returns
exactly the logs of the sink's stream whose block number lies in the
range, preserving stream order. -/
def idealGetLogs (chain : List TransferLog) (lo hi : Nat) : List TransferLog :=
  chain.filter (fun l => lo ≤ l.blockNumber && l.blockNumber ≤ hi)

/-- `fetchLogsInChunks` from `ethereumMonitor.ts`: walks `start` from
`fromBlock` in strides of `maxPerQuery + 1`, querying
`[start, min (start + maxPerQuery) toBlock]` each iteration and
concatenating the results.  The provider call is abstracted as
`getLogs`. `maxPerQuery` is the module constant `MAX_BLOCKS_PER_QUERY`
(10 in the scanner). -/
def fetchLogsInChunks (getLogs : Nat → Nat → List TransferLog)
    (maxPerQuery fromBlock toBlock : Nat) : List TransferLog :=
  if fromBlock ≤ toBlock then
    let endB := if fromBlock + maxPerQuery > toBlock then toBlock else fromBlock + maxPerQuery
    getLogs fromBlock endB ++
      fetchLogsInChunks getLogs maxPerQuery (fromBlock + maxPerQuery + 1) toBlock
  else []
termination_by toBlock + 1 - fromBlock
decreasing_by omega

/-- The sub-ranges (inclusive bounds) that `fetchLogsInChunks` queries,
in query order: the same loop as `fetchLogsInChunks`, recording the
`(start, end)` pair of each `getLogs` call instead of its result. -/
def chunkRanges (maxPerQuery fromBlock toBlock : Nat) : List (Nat × Nat) :=
  if fromBlock ≤ toBlock then
    let endB := if fromBlock + maxPerQuery > toBlock then toBlock else fromBlock + maxPerQuery
    (fromBlock, endB) :: chunkRanges maxPerQuery (fromBlock + maxPerQuery + 1) toBlock
  else []
termination_by toBlock + 1 - fromBlock
decreasing_by omega

/-- `MAX_BLOCKS_PER_QUERY` of the scanner (`ethereumMonitor.ts`):
Alchemy free-tier limit. -/
def MAX_BLOCKS_PER_QUERY : Nat := 10

/-- One entry of the `burnsByTx` map in `fetchBurnsSinceBlock`: a
transaction hash key with the first log seen for it and the destination
it was registered under.  A JavaScript `Map` keeps insertion order, so
the map is a list of entries with pairwise-distinct keys. -/
structure TxEntry where
  txHash : Nat
  log : TransferLog
  destination : Dest
deriving DecidableEq, Repr

/-- `burnsByTx.has(h) / burnsByTx.set(h, ...)` pair: insert the log
under its transaction hash only if the hash is not yet a key. -/
def insertLog (m : List TxEntry) (l : TransferLog) (d : Dest) : List TxEntry :=
  if m.any (fun e => e.txHash == l.transactionHash) then m
  else m ++ [⟨l.transactionHash, l, d⟩]

/-- The two insertion loops over `firepitLogs` then `deadLogs` in
`fetchBurnsSinceBlock`: firepit logs are registered first, dead logs
only for hashes not already present. -/
def buildBurnsByTx (fire dead : List TransferLog) : List TxEntry :=
  let m1 := fire.foldl (fun m l => insertLog m l Dest.firepit) []
  dead.foldl (fun m l => insertLog m l Dest.dead) m1

/-- Result of `getTransaction` + `getTransactionReceipt` for one hash
(`getTransactionData` in the source); gas metadata is dropped as no
claim mentions it. -/
structure TxData where
  initiator : Nat
deriving DecidableEq, Repr

/-- One reconciled burn event (`BurnEvent` in `types.ts`); the
human-formatted `uniAmount` string is derived from `uniAmountRaw` and
is dropped. -/
structure BurnEvent where
  txHash : Nat
  blockNumber : Nat
  timestamp : Nat
  uniAmountRaw : Nat
  initiator : Nat
  destination : Dest
deriving DecidableEq, Repr

/-- The remote collaborators of one `fetchBurnsSinceBlock` call: the
chain head it observes, the per-sink log streams backing `getLogs`, the
transaction-detail oracle (`none` = rejected lookup) and the total
block-timestamp lookup. -/
structure Provider where
  head : Nat
  chainFire : List TransferLog
  chainDead : List TransferLog
  txData : Nat → Option TxData
  blockTs : Nat → Nat

/-- `await Promise.all` over per-entry enrichment promises: all results
when every promise resolves, `none` as soon as any rejects. -/
def allResolved {α β : Type} (f : α → Option β) : List α → Option (List β)
  | [] => some []
  | a :: rest =>
    match f a, allResolved f rest with
    | some b, some bs => some (b :: bs)
    | _, _ => none

/-- Enrichment of one surviving map entry into a `BurnEvent` (the body
of `burnDataPromises` in `fetchBurnsSinceBlock`): timestamp lookup never
rejects (internal fallback), transaction-data lookup may. -/
def enrichEntry (p : Provider) (e : TxEntry) : Option BurnEvent :=
  match p.txData e.txHash with
  | none => none
  | some td =>
    some { txHash := e.txHash
           blockNumber := e.log.blockNumber
           timestamp := p.blockTs e.log.blockNumber
           uniAmountRaw := e.log.argsValue.getD 0
           initiator := td.initiator
           destination := e.destination }

/-- Stable insertion step for the ascending sort by block number at the
end of `fetchBurnsSinceBlock` (`burns.sort((a, b) => a.blockNumber -
b.blockNumber)`). -/
def insertByBlock (b : BurnEvent) : List BurnEvent → List BurnEvent
  | [] => [b]
  | c :: rest =>
    if b.blockNumber ≤ c.blockNumber then b :: c :: rest
    else c :: insertByBlock b rest

/-- Ascending stable sort by block number. -/
def sortByBlock : List BurnEvent → List BurnEvent
  | [] => []
  | b :: rest => insertByBlock b (sortByBlock rest)

/-- The `firepitLogs` local of `fetchBurnsSinceBlock`: the chunked
fetch of the firepit sink over `[fromBlock, currentBlock]`. -/
def scannerFireLogs (p : Provider) (fromBlock : Nat) : List TransferLog :=
  fetchLogsInChunks (idealGetLogs p.chainFire) MAX_BLOCKS_PER_QUERY fromBlock p.head

/-- The `deadLogs` local of `fetchBurnsSinceBlock`: the chunked fetch
of the 0xdead sink over `[fromBlock, currentBlock]`. -/
def scannerDeadLogs (p : Provider) (fromBlock : Nat) : List TransferLog :=
  fetchLogsInChunks (idealGetLogs p.chainDead) MAX_BLOCKS_PER_QUERY fromBlock p.head

/-- The `burnEntries` local of `fetchBurnsSinceBlock`: the deduplicated
map entries whose decoded `args.value` and `args.from` are truthy. -/
def burnEntries (p : Provider) (fromBlock : Nat) : List TxEntry :=
  (buildBurnsByTx (scannerFireLogs p fromBlock) (scannerDeadLogs p fromBlock)).filter
    (fun e => jsTruthyValue e.log.argsValue && jsTruthyAddr e.log.argsFrom)

/-- `fetchBurnsSinceBlock` from `ethereumMonitor.ts`: early-returns `[]`
when `fromBlock >= currentBlock`; otherwise fetches both sink streams in
chunks over `[fromBlock, currentBlock]`, deduplicates by transaction
hash (firepit first), drops entries whose `args.value` or `args.from` is
falsy, enriches all survivors under `Promise.all` (one rejection rejects
the whole call, modelled as `Except.error`), and sorts ascending by
block number. -/
def fetchBurnsSinceBlock (p : Provider) (fromBlock : Nat) :
    Except Unit (List BurnEvent) :=
  if fromBlock ≥ p.head then .ok []
  else
    match allResolved (enrichEntry p) (burnEntries p fromBlock) with
    | some burns => .ok (sortByBlock burns)
    | none => .error ()

/-- Spec-side reference pipeline for the refinement claim about the
range `[fromBlock, head]`: identical to `fetchBurnsSinceBlock` except
that each sink is read with one single unchunked ideal query over the
whole range (the spec's "single unchunked query ... on an ideal
provider"). -/
def fetchBurnsSingleQuery (p : Provider) (fromBlock : Nat) :
    Except Unit (List BurnEvent) :=
  if fromBlock ≥ p.head then .ok []
  else
    let fire := idealGetLogs p.chainFire fromBlock p.head
    let dead := idealGetLogs p.chainDead fromBlock p.head
    let entries := (buildBurnsByTx fire dead).filter
      (fun e => jsTruthyValue e.log.argsValue && jsTruthyAddr e.log.argsFrom)
    match allResolved (enrichEntry p) entries with
    | some burns => .ok (sortByBlock burns)
    | none => .error ()

/-! ## The checkpointed scanner (`bot.ts`) -/

/-- One persisted row of the `burns` table, reduced to the columns the
claims mention (`tx_hash` is the unique key, `block_number` the ordering
key). -/
structure StoredBurn where
  txHash : Nat
  blockNumber : Nat
deriving DecidableEq, Repr

/-- The Checkpoint & Dedup Store: the `burns` rows in insertion order
and the `state` table's `lastProcessedBlock` key (`none` before the
first `setLastProcessedBlock`). -/
structure ScannerState where
  store : List StoredBurn
  lastProcessedBlock : Option Nat
deriving DecidableEq, Repr

/-- `isBurnNotified` from `database.ts`: does a row with this
transaction hash exist. -/
def isBurnNotified (store : List StoredBurn) (h : Nat) : Bool :=
  store.any (fun r => r.txHash == h)

/-- `saveBurn` from `database.ts`: `INSERT ... ON CONFLICT (tx_hash) DO
NOTHING` — appends the row unless the hash is already present, and never
fails on a duplicate. -/
def saveBurn (store : List StoredBurn) (row : StoredBurn) : List StoredBurn :=
  if isBurnNotified store row.txHash then store else store ++ [row]

/-- The observable calls one poll cycle makes: the channel-delivery
attempts (`sendBurnAlert`, by transaction hash, in order) and the
checkpoint writes (`setLastProcessedBlock`, in order). -/
structure CycleTrace where
  deliverCalls : List Nat
  setCalls : List Nat
deriving DecidableEq, Repr

/-- `INITIAL_LOOKBACK_BLOCKS` from `bot.ts`. -/
def INITIAL_LOOKBACK_BLOCKS : Nat := 300

/-- The `for (const burn of burns)` loop of `processNewBurns`
(`bot.ts`): skip hashes already stored (before any checkpoint write);
otherwise attempt delivery, persist the row only when delivery
succeeded (the `catch` skips `saveBurn`), and then — unconditionally,
outside the `try`/`catch` — write the checkpoint to this burn's block
number. -/
def processBurnsLoop (deliverOk : Nat → Bool) :
    List BurnEvent → ScannerState → CycleTrace → ScannerState × CycleTrace
  | [], s, t => (s, t)
  | b :: rest, s, t =>
    if isBurnNotified s.store b.txHash then
      processBurnsLoop deliverOk rest s t
    else
      let t1 : CycleTrace := ⟨t.deliverCalls ++ [b.txHash], t.setCalls⟩
      let s1 : ScannerState :=
        if deliverOk b.txHash then ⟨saveBurn s.store ⟨b.txHash, b.blockNumber⟩, s.lastProcessedBlock⟩
        else s
      let s2 : ScannerState := ⟨s1.store, some b.blockNumber⟩
      let t2 : CycleTrace := ⟨t1.deliverCalls, t1.setCalls ++ [b.blockNumber]⟩
      processBurnsLoop deliverOk rest s2 t2

/-- One poll cycle, `processNewBurns` from `bot.ts`.  `p.head` is what
`getCurrentBlockNumber` returns while deriving the range and fetching;
`headAtEnd` is what it returns for the checkpoint write that ends the
cycle (the empty-delta branch and the post-loop write).  Cold start
(no checkpoint) looks back `INITIAL_LOOKBACK_BLOCKS` from the head;
resume starts at checkpoint + 1.  A fetch (or enrichment) rejection is
swallowed by the cycle's outer `catch`: no state change, no calls. -/
def processNewBurns (p : Provider) (deliverOk : Nat → Bool) (headAtEnd : Nat)
    (s : ScannerState) : ScannerState × CycleTrace :=
  let fromBlock := match s.lastProcessedBlock with
    | none => p.head - INITIAL_LOOKBACK_BLOCKS
    | some c => c + 1
  match fetchBurnsSinceBlock p fromBlock with
  | .error _ => (s, ⟨[], []⟩)
  | .ok [] => (⟨s.store, some headAtEnd⟩, ⟨[], [headAtEnd]⟩)
  | .ok (b :: bs) =>
    let r := processBurnsLoop deliverOk (b :: bs) s ⟨[], []⟩
    (⟨r.1.store, some headAtEnd⟩, ⟨r.2.deliverCalls, r.2.setCalls ++ [headAtEnd]⟩)

/-- The collaborators of one scheduled poll cycle: the provider as the
cycle observes it, the head observed by the cycle-final
`getCurrentBlockNumber`, and the delivery oracle. -/
structure CycleEnv where
  provider : Provider
  headAtEnd : Nat
  deliverOk : Nat → Bool

/-- A sequence of poll cycles of the long-lived loop, collecting every
`setLastProcessedBlock` argument across cycles in order. -/
def runCycles : List CycleEnv → ScannerState → ScannerState × List Nat
  | [], s => (s, [])
  | e :: rest, s =>
    let r := processNewBurns e.provider e.deliverOk e.headAtEnd s
    let r2 := runCycles rest r.1
    (r2.1, r.2.setCalls ++ r2.2)

/-! ## The backfill runner (`backfill.ts`) -/

/-- Result classification of `processAndSaveBurn` in `backfill.ts`. -/
inductive SaveResult where
  | saved
  | skipped
  | error
deriving DecidableEq, Repr

/-- The collaborators of a backfill run: the two sink streams backing
`getLogs`, a failure oracle for the chunk fetch (`fetchFails f a` is
whether the pair of `getLogs` calls for the chunk starting at `f`
throws on its `a`-th attempt — the attempt index only feeds the oracle,
the code keeps no attempt counter), and the per-hash
transaction/receipt/block lookup oracle. -/
structure BackfillEnv where
  chainFire : List TransferLog
  chainDead : List TransferLog
  fetchFails : Nat → Nat → Bool
  lookupOk : Nat → Bool

/-- `processAndSaveBurn` from `backfill.ts`: malformed logs (falsy
`args.value` or `args.from`) are classified `error`; a rejected detail
lookup is caught, and — since its message never mentions a UNIQUE
constraint — classified `error`; otherwise `saveBurn` runs (its
`ON CONFLICT DO NOTHING` insert completes normally even on a duplicate,
so the `catch`'s duplicate branch cannot fire) and the result is
`saved`.  The hash/block-presence guards of the source are always
satisfied here because the embedding keeps those fields total. -/
def processAndSaveBurn (env : BackfillEnv) (store : List StoredBurn)
    (l : TransferLog) : SaveResult × List StoredBurn :=
  if !(jsTruthyValue l.argsValue && jsTruthyAddr l.argsFrom) then (.error, store)
  else if !(env.lookupOk l.transactionHash) then (.error, store)
  else (.saved, saveBurn store ⟨l.transactionHash, l.blockNumber⟩)

/-- The per-chunk processing loops of `backfillBurns`: run
`processAndSaveBurn` over each log, incrementing the saved/skipped
counters as the source does. -/
def processChunk (env : BackfillEnv) :
    List TransferLog → Nat × Nat × List StoredBurn → Nat × Nat × List StoredBurn
  | [], acc => acc
  | l :: rest, (saved, skipped, store) =>
    let r := processAndSaveBurn env store l
    let acc' := match r.1 with
      | .saved => (saved + 1, skipped, r.2)
      | .skipped => (saved, skipped + 1, r.2)
      | .error => (saved, skipped, r.2)
    processChunk env rest acc'

/-- The chunk loop of `backfillBurns`: scans `[fromBlock, fromBlock +
maxQ - 1]` clipped to `currentBlock`, stride `maxQ`.  A thrown chunk
fetch is caught and the same chunk is retried (`fromBlock -=
MAX_BLOCKS_PER_QUERY` inside the `catch`, undone by the loop
increment) — the source keeps no retry counter, so `attempt` here only
indexes the failure oracle.  `fuel` bounds the number of iterations we
unfold; `none` means the loop was still running when the fuel ran out
(the source loop can run forever on a persistently failing chunk). -/
def backfillLoop (env : BackfillEnv) (maxQ currentBlock : Nat) :
    Nat → Nat → Nat × Nat × List StoredBurn → Nat → Option (Nat × Nat × List StoredBurn)
  | _, _, _, 0 => none
  | fromBlock, attempt, acc, fuel + 1 =>
    if fromBlock > currentBlock then some acc
    else if env.fetchFails fromBlock attempt then
      backfillLoop env maxQ currentBlock fromBlock (attempt + 1) acc fuel
    else
      let toBlock := if fromBlock + maxQ - 1 > currentBlock then currentBlock else fromBlock + maxQ - 1
      let fire := idealGetLogs env.chainFire fromBlock toBlock
      let dead := idealGetLogs env.chainDead fromBlock toBlock
      let acc1 := processChunk env fire acc
      let acc2 := processChunk env dead acc1
      backfillLoop env maxQ currentBlock (fromBlock + maxQ) 0 acc2 fuel

/-- `BACKFILL_MAX_BLOCKS_PER_QUERY` (`MAX_BLOCKS_PER_QUERY` in
`backfill.ts`). -/
def BACKFILL_MAX_BLOCKS_PER_QUERY : Nat := 10

/-- A whole backfill run over `[deploymentBlock, currentBlock]` starting
from a given store (the database contents when the run starts), returning
the summary counters (`totalSaved`, `totalSkipped`) and the final store. -/
def backfillBurns (env : BackfillEnv) (deploymentBlock currentBlock : Nat)
    (store : List StoredBurn) (fuel : Nat) : Option (Nat × Nat × List StoredBurn) :=
  backfillLoop env BACKFILL_MAX_BLOCKS_PER_QUERY currentBlock deploymentBlock 0 (0, 0, store) fuel

/-! ## Properties of the chunked fetcher -/

theorem idealGetLogs_split (a m b : Nat) (ham : a ≤ m + 1) (hmb : m < b) :
    ∀ chain : List TransferLog,
      chain.Pairwise (fun x y => x.blockNumber ≤ y.blockNumber) →
      idealGetLogs chain a b = idealGetLogs chain a m ++ idealGetLogs chain (m + 1) b := by
  intro chain
  induction chain with
  | nil => intro _; rfl
  | cons l rest ih =>
    intro hp
    obtain ⟨hle, hrest⟩ := List.pairwise_cons.mp hp
    have ihr := ih hrest
    simp only [idealGetLogs, List.filter_cons] at ihr ⊢
    by_cases hab : a ≤ l.blockNumber
    · by_cases hbm : l.blockNumber ≤ m
      · have hbb : l.blockNumber ≤ b := by omega
        have hno : ¬ m + 1 ≤ l.blockNumber := by omega
        simp [hab, hbm, hbb, hno, ihr]
      · by_cases hbb : l.blockNumber ≤ b
        · have hm1 : m + 1 ≤ l.blockNumber := by omega
          have hempty :
              List.filter (fun x => decide (a ≤ x.blockNumber) && decide (x.blockNumber ≤ m)) rest
                = [] := by
            rw [List.filter_eq_nil_iff]
            intro x hx
            have := hle x hx
            simp
            omega
          have hcongr :
              List.filter (fun x => decide (a ≤ x.blockNumber) && decide (x.blockNumber ≤ b)) rest
                = List.filter (fun x => decide (m + 1 ≤ x.blockNumber) && decide (x.blockNumber ≤ b)) rest := by
            apply List.filter_congr
            intro x hx
            have := hle x hx
            have h1 : a ≤ x.blockNumber := by omega
            have h2 : m + 1 ≤ x.blockNumber := by omega
            simp [h1, h2]
          simp [hab, hbm, hbb, hm1, hempty, hcongr]
        · have hbm2 : ¬ l.blockNumber ≤ m := by omega
          simp [hab, hbm2, hbb, ihr]
    · have hno : ¬ m + 1 ≤ l.blockNumber := by omega
      simp [hab, hno, ihr]

theorem chunkRanges_mem (maxQ : Nat) :
    ∀ fromBlock toBlock, ∀ r ∈ chunkRanges maxQ fromBlock toBlock,
      fromBlock ≤ r.1 ∧ r.1 ≤ r.2 ∧ r.2 ≤ toBlock ∧ r.2 - r.1 ≤ maxQ := by
  intro fromBlock toBlock
  induction fromBlock, toBlock using chunkRanges.induct maxQ with
  | case1 f t h ih =>
    intro r hr
    rw [chunkRanges, if_pos h] at hr
    rcases List.mem_cons.mp hr with heq | hmem
    · subst heq
      by_cases hc : f + maxQ > t <;> simp [hc] <;> omega
    · have := ih r hmem
      omega
  | case2 f t h =>
    intro r hr
    rw [chunkRanges, if_neg h] at hr
    exact absurd hr (List.not_mem_nil r)

theorem chunkRanges_ordered (maxQ : Nat) :
    ∀ fromBlock toBlock,
      (chunkRanges maxQ fromBlock toBlock).Pairwise (fun r s => r.2 < s.1) := by
  intro fromBlock toBlock
  induction fromBlock, toBlock using chunkRanges.induct maxQ with
  | case1 f t h ih =>
    rw [chunkRanges, if_pos h]
    refine List.pairwise_cons.mpr ⟨?_, ih⟩
    intro r hr
    have := chunkRanges_mem maxQ (f + maxQ + 1) t r hr
    by_cases hc : f + maxQ > t <;> simp [hc] <;> omega
  | case2 f t h =>
    rw [chunkRanges, if_neg h]
    exact List.Pairwise.nil

theorem chunkRanges_cover (maxQ : Nat) :
    ∀ fromBlock toBlock b, fromBlock ≤ b → b ≤ toBlock →
      ∃ r ∈ chunkRanges maxQ fromBlock toBlock, r.1 ≤ b ∧ b ≤ r.2 := by
  intro fromBlock toBlock
  induction fromBlock, toBlock using chunkRanges.induct maxQ with
  | case1 f t h ih =>
    intro b hfb hbt
    rw [chunkRanges, if_pos h]
    by_cases hb : b ≤ (if f + maxQ > t then t else f + maxQ)
    · exact ⟨(f, if f + maxQ > t then t else f + maxQ), List.mem_cons_self _ _, hfb, hb⟩
    · have hlt : ¬ f + maxQ > t := by
        by_contra hgt
        simp [hgt] at hb
        omega
      simp [hlt] at hb
      obtain ⟨r, hr, h1, h2⟩ := ih b (by omega) hbt
      exact ⟨r, List.mem_cons_of_mem _ hr, h1, h2⟩
  | case2 f t h =>
    intro b hfb hbt
    omega

theorem fetchLogsInChunks_eq_flatMap (g : Nat → Nat → List TransferLog) (maxQ : Nat) :
    ∀ fromBlock toBlock,
      fetchLogsInChunks g maxQ fromBlock toBlock
        = (chunkRanges maxQ fromBlock toBlock).flatMap (fun r => g r.1 r.2) := by
  intro fromBlock toBlock
  induction fromBlock, toBlock using chunkRanges.induct maxQ with
  | case1 f t h ih =>
    rw [fetchLogsInChunks, chunkRanges, if_pos h, if_pos h, List.flatMap_cons, ih]
  | case2 f t h =>
    rw [fetchLogsInChunks, chunkRanges, if_neg h, if_neg h, List.flatMap_nil]

theorem fetchLogsInChunks_eq_single (chain : List TransferLog)
    (hs : chain.Pairwise (fun x y => x.blockNumber ≤ y.blockNumber)) (maxQ : Nat) :
    ∀ fromBlock toBlock,
      fetchLogsInChunks (idealGetLogs chain) maxQ fromBlock toBlock
        = if fromBlock ≤ toBlock then idealGetLogs chain fromBlock toBlock else [] := by
  intro fromBlock toBlock
  induction fromBlock, toBlock using chunkRanges.induct maxQ with
  | case1 f t h ih =>
    rw [fetchLogsInChunks, if_pos h, if_pos h, ih]
    by_cases hc : f + maxQ ≥ t
    · have hrec : ¬ f + maxQ + 1 ≤ t := by omega
      rw [if_neg hrec, List.append_nil]
      by_cases hgt : f + maxQ > t
      · simp [hgt]
      · have : f + maxQ = t := by omega
        simp [hgt, this]
    · have hgt : ¬ f + maxQ > t := by omega
      have hrec : f + maxQ + 1 ≤ t := by omega
      rw [if_pos hrec]
      simp only [hgt, if_false]
      exact (idealGetLogs_split f (f + maxQ) t (by omega) (by omega) chain hs).symm
  | case2 f t h =>
    rw [fetchLogsInChunks, if_neg h, if_neg h]

theorem fetchLogsInChunks_mem_bound (chain : List TransferLog) (maxQ : Nat)
    (fromBlock toBlock : Nat) (l : TransferLog)
    (hl : l ∈ fetchLogsInChunks (idealGetLogs chain) maxQ fromBlock toBlock) :
    (fromBlock ≤ l.blockNumber ∧ l.blockNumber ≤ toBlock) ∧ l ∈ chain := by
  rw [fetchLogsInChunks_eq_flatMap] at hl
  obtain ⟨r, hr, hmem⟩ := List.mem_flatMap.mp hl
  have hrb := chunkRanges_mem maxQ fromBlock toBlock r hr
  obtain ⟨hin, hcond⟩ := List.mem_filter.mp hmem
  simp only [Bool.and_eq_true, decide_eq_true_eq] at hcond
  exact ⟨⟨by omega, by omega⟩, hin⟩

/-! ## Sorting lemmas -/

theorem insertByBlock_perm (b : BurnEvent) :
    ∀ l : List BurnEvent, (insertByBlock b l).Perm (b :: l) := by
  intro l
  induction l with
  | nil => simp [insertByBlock]
  | cons c rest ih =>
    rw [insertByBlock]
    by_cases h : b.blockNumber ≤ c.blockNumber
    · rw [if_pos h]
    · rw [if_neg h]
      exact (ih.cons c).trans (List.Perm.swap b c rest)

theorem sortByBlock_perm : ∀ l : List BurnEvent, (sortByBlock l).Perm l := by
  intro l
  induction l with
  | nil => simp [sortByBlock]
  | cons b rest ih =>
    rw [sortByBlock]
    exact (insertByBlock_perm b _).trans (ih.cons b)

theorem insertByBlock_pairwise (b : BurnEvent) :
    ∀ l : List BurnEvent,
      l.Pairwise (fun x y => x.blockNumber ≤ y.blockNumber) →
      (insertByBlock b l).Pairwise (fun x y => x.blockNumber ≤ y.blockNumber) := by
  intro l
  induction l with
  | nil => intro _; simp [insertByBlock]
  | cons c rest ih =>
    intro hp
    obtain ⟨hcle, hrest⟩ := List.pairwise_cons.mp hp
    rw [insertByBlock]
    by_cases h : b.blockNumber ≤ c.blockNumber
    · rw [if_pos h]
      refine List.pairwise_cons.mpr ⟨?_, hp⟩
      intro x hx
      rcases List.mem_cons.mp hx with rfl | hx
      · exact h
      · exact le_trans h (hcle x hx)
    · rw [if_neg h]
      refine List.pairwise_cons.mpr ⟨?_, ih hrest⟩
      intro x hx
      have hx' := (insertByBlock_perm b rest).mem_iff.mp hx
      rcases List.mem_cons.mp hx' with rfl | hx'
      · omega
      · exact hcle x hx'

theorem sortByBlock_sorted : ∀ l : List BurnEvent,
    (sortByBlock l).Pairwise (fun x y => x.blockNumber ≤ y.blockNumber) := by
  intro l
  induction l with
  | nil => simp [sortByBlock]
  | cons b rest ih =>
    rw [sortByBlock]
    exact insertByBlock_pairwise b _ ih

/-! ## `Promise.all` lemmas -/

theorem allResolved_forall₂ {α β : Type} (f : α → Option β) :
    ∀ l bs, allResolved f l = some bs →
      List.Forall₂ (fun a b => f a = some b) l bs := by
  intro l
  induction l with
  | nil =>
    intro bs h
    simp only [allResolved] at h
    cases h
    exact List.Forall₂.nil
  | cons a rest ih =>
    intro bs h
    simp only [allResolved] at h
    cases hfa : f a with
    | none => rw [hfa] at h; cases h
    | some b =>
      rw [hfa] at h
      cases hrest : allResolved f rest with
      | none => rw [hrest] at h; cases h
      | some bs' =>
        rw [hrest] at h
        cases h
        exact List.Forall₂.cons hfa (ih bs' hrest)

theorem allResolved_eq_none {α β : Type} (f : α → Option β) :
    ∀ l a, a ∈ l → f a = none → allResolved f l = none := by
  intro l
  induction l with
  | nil => intro a ha; cases ha
  | cons x rest ih =>
    intro a ha hfa
    rcases List.mem_cons.mp ha with rfl | ha
    · simp only [allResolved, hfa]
    · simp only [allResolved, ih a ha hfa]
      cases f x <;> rfl

theorem forall₂_mem_right {α β : Type} {R : α → β → Prop} :
    ∀ {l : List α} {bs : List β}, List.Forall₂ R l bs →
      ∀ b ∈ bs, ∃ a ∈ l, R a b := by
  intro l bs h
  induction h with
  | nil => intro b hb; cases hb
  | cons hab htail ih =>
    intro b hb
    rcases List.mem_cons.mp hb with rfl | hb
    · exact ⟨_, List.mem_cons_self _ _, hab⟩
    · obtain ⟨a, ha, hr⟩ := ih b hb
      exact ⟨a, List.mem_cons_of_mem _ ha, hr⟩

theorem forall₂_map_eq {α β : Type} {R : α → β → Prop} (g : β → Nat) (k : α → Nat)
    (hgk : ∀ a b, R a b → g b = k a) :
    ∀ {l : List α} {bs : List β}, List.Forall₂ R l bs → bs.map g = l.map k := by
  intro l bs h
  induction h with
  | nil => rfl
  | cons hab htail ih => simp [hgk _ _ hab, ih]

theorem enrichEntry_some (p : Provider) (e : TxEntry) (b : BurnEvent)
    (h : enrichEntry p e = some b) :
    b.txHash = e.txHash ∧ b.blockNumber = e.log.blockNumber ∧
      b.destination = e.destination ∧ b.uniAmountRaw = e.log.argsValue.getD 0 := by
  cases htd : p.txData e.txHash with
  | none =>
    simp only [enrichEntry, htd] at h
    exact Option.noConfusion h
  | some td =>
    simp only [enrichEntry, htd] at h
    cases h
    exact ⟨rfl, rfl, rfl, rfl⟩

/-! ## Deduplication-map lemmas -/

theorem mem_insertLog (m : List TxEntry) (l : TransferLog) (d : Dest) (e : TxEntry)
    (he : e ∈ insertLog m l d) :
    e ∈ m ∨ (e.txHash = l.transactionHash ∧ e.log = l ∧ e.destination = d ∧
      l.transactionHash ∉ m.map (fun x => x.txHash)) := by
  rw [insertLog] at he
  by_cases h : m.any (fun x => x.txHash == l.transactionHash)
  · rw [if_pos h] at he
    exact Or.inl he
  · rw [if_neg h] at he
    rcases List.mem_append.mp he with hm | hnew
    · exact Or.inl hm
    · rcases List.mem_singleton.mp hnew with rfl
      refine Or.inr ⟨rfl, rfl, rfl, ?_⟩
      intro hk
      obtain ⟨x, hx, hxk⟩ := List.mem_map.mp hk
      exact h (List.any_eq_true.mpr ⟨x, hx, by simp [hxk]⟩)

theorem keys_insertLog_sub (m : List TxEntry) (l : TransferLog) (d : Dest) :
    ∀ k ∈ m.map (fun e => e.txHash), k ∈ (insertLog m l d).map (fun e => e.txHash) := by
  intro k hk
  rw [insertLog]
  by_cases h : m.any (fun x => x.txHash == l.transactionHash)
  · rw [if_pos h]; exact hk
  · rw [if_neg h]
    simp only [List.map_append, List.mem_append]
    exact Or.inl hk

theorem keys_insertLog_self (m : List TxEntry) (l : TransferLog) (d : Dest) :
    l.transactionHash ∈ (insertLog m l d).map (fun e => e.txHash) := by
  rw [insertLog]
  by_cases h : m.any (fun x => x.txHash == l.transactionHash)
  · rw [if_pos h]
    obtain ⟨x, hx, hxk⟩ := List.any_eq_true.mp h
    have : x.txHash = l.transactionHash := by simpa using hxk
    exact List.mem_map.mpr ⟨x, hx, this⟩
  · rw [if_neg h]
    simp

theorem keys_insertLog_nodup (m : List TxEntry) (l : TransferLog) (d : Dest)
    (h : (m.map (fun e => e.txHash)).Nodup) :
    ((insertLog m l d).map (fun e => e.txHash)).Nodup := by
  rw [insertLog]
  by_cases hany : m.any (fun x => x.txHash == l.transactionHash)
  · rw [if_pos hany]; exact h
  · rw [if_neg hany]
    simp only [List.map_append, List.map_cons, List.map_nil]
    rw [List.nodup_append]
    refine ⟨h, List.nodup_singleton _, ?_⟩
    intro k hk hk1
    rcases List.mem_singleton.mp hk1 with rfl
    obtain ⟨x, hx, hxk⟩ := List.mem_map.mp hk
    exact hany (List.any_eq_true.mpr ⟨x, hx, by simp [hxk]⟩)

theorem foldl_insertLog_keys_nodup (d : Dest) :
    ∀ (logs : List TransferLog) (m : List TxEntry),
      (m.map (fun e => e.txHash)).Nodup →
      (((logs.foldl (fun m l => insertLog m l d) m)).map (fun e => e.txHash)).Nodup := by
  intro logs
  induction logs with
  | nil => intro m h; exact h
  | cons l rest ih =>
    intro m h
    exact ih (insertLog m l d) (keys_insertLog_nodup m l d h)

theorem foldl_insertLog_keys_sub (d : Dest) :
    ∀ (logs : List TransferLog) (m : List TxEntry),
      ∀ k ∈ m.map (fun e => e.txHash),
        k ∈ ((logs.foldl (fun m l => insertLog m l d) m)).map (fun e => e.txHash) := by
  intro logs
  induction logs with
  | nil => intro m k hk; exact hk
  | cons l rest ih =>
    intro m k hk
    exact ih (insertLog m l d) k (keys_insertLog_sub m l d k hk)

theorem foldl_insertLog_keys_complete (d : Dest) :
    ∀ (logs : List TransferLog) (m : List TxEntry) (l : TransferLog), l ∈ logs →
      l.transactionHash ∈ ((logs.foldl (fun m l => insertLog m l d) m)).map (fun e => e.txHash) := by
  intro logs
  induction logs with
  | nil => intro m l hl; cases hl
  | cons x rest ih =>
    intro m l hl
    rcases List.mem_cons.mp hl with rfl | hl
    · exact foldl_insertLog_keys_sub d rest (insertLog m l d) _ (keys_insertLog_self m l d)
    · exact ih (insertLog m x d) l hl

theorem mem_foldl_insertLog (d : Dest) :
    ∀ (logs : List TransferLog) (m : List TxEntry) (e : TxEntry),
      e ∈ logs.foldl (fun m l => insertLog m l d) m →
      e ∈ m ∨ (e.destination = d ∧ e.txHash = e.log.transactionHash ∧ e.log ∈ logs ∧
        e.txHash ∉ m.map (fun x => x.txHash)) := by
  intro logs
  induction logs with
  | nil => intro m e he; exact Or.inl he
  | cons l rest ih =>
    intro m e he
    rcases ih (insertLog m l d) e he with hm | ⟨hd, hk, hlog, hnot⟩
    · rcases mem_insertLog m l d e hm with hm2 | ⟨hk, hlog, hd, hnot⟩
      · exact Or.inl hm2
      · refine Or.inr ⟨hd, by rw [hk, hlog], by rw [hlog]; exact List.mem_cons_self _ _, ?_⟩
        rw [hk]; exact hnot
    · refine Or.inr ⟨hd, hk, List.mem_cons_of_mem _ hlog, ?_⟩
      intro hmem
      exact hnot (keys_insertLog_sub m l d _ hmem)

/-! ## Characterization of `fetchBurnsSinceBlock` -/

theorem fetchBurns_ok_cases (p : Provider) (fromBlock : Nat) (burns : List BurnEvent)
    (hok : fetchBurnsSinceBlock p fromBlock = .ok burns) :
    (fromBlock ≥ p.head ∧ burns = []) ∨
    (fromBlock < p.head ∧ ∃ bs,
      allResolved (enrichEntry p) (burnEntries p fromBlock) = some bs ∧
      burns = sortByBlock bs) := by
  simp only [fetchBurnsSinceBlock] at hok
  by_cases h : fromBlock ≥ p.head
  · rw [if_pos h] at hok
    cases hok
    exact Or.inl ⟨h, rfl⟩
  · rw [if_neg h] at hok
    cases hres : allResolved (enrichEntry p) (burnEntries p fromBlock) with
    | none =>
      rw [hres] at hok
      exact Except.noConfusion hok
    | some bs =>
      rw [hres] at hok
      cases hok
      exact Or.inr ⟨by omega, bs, rfl, rfl⟩

theorem fetchBurns_ok_mem (p : Provider) (fromBlock : Nat) (burns : List BurnEvent)
    (hok : fetchBurnsSinceBlock p fromBlock = .ok burns) (b : BurnEvent) (hb : b ∈ burns) :
    ∃ e ∈ burnEntries p fromBlock, enrichEntry p e = some b := by
  rcases fetchBurns_ok_cases p fromBlock burns hok with ⟨_, rfl⟩ | ⟨_, bs, hall, rfl⟩
  · cases hb
  · have hbs : b ∈ bs := (sortByBlock_perm bs).subset hb
    exact forall₂_mem_right (allResolved_forall₂ _ _ _ hall) b hbs

theorem fetchBurns_ok_sorted (p : Provider) (fromBlock : Nat) (burns : List BurnEvent)
    (hok : fetchBurnsSinceBlock p fromBlock = .ok burns) :
    burns.Pairwise (fun x y => x.blockNumber ≤ y.blockNumber) := by
  rcases fetchBurns_ok_cases p fromBlock burns hok with ⟨_, rfl⟩ | ⟨_, bs, _, rfl⟩
  · exact List.Pairwise.nil
  · exact sortByBlock_sorted bs

theorem mem_buildBurnsByTx (fire dead : List TransferLog) (e : TxEntry)
    (he : e ∈ buildBurnsByTx fire dead) :
    e.txHash = e.log.transactionHash ∧
      ((e.destination = Dest.firepit ∧ e.log ∈ fire) ∨
        (e.destination = Dest.dead ∧ e.log ∈ dead)) := by
  simp only [buildBurnsByTx] at he
  rcases mem_foldl_insertLog Dest.dead dead _ e he with hm1 | ⟨hd, hk, hlog, _⟩
  · rcases mem_foldl_insertLog Dest.firepit fire [] e hm1 with habs | ⟨hd, hk, hlog, _⟩
    · cases habs
    · exact ⟨hk, Or.inl ⟨hd, hlog⟩⟩
  · exact ⟨hk, Or.inr ⟨hd, hlog⟩⟩

theorem buildBurnsByTx_keys_nodup (fire dead : List TransferLog) :
    ((buildBurnsByTx fire dead).map (fun e => e.txHash)).Nodup := by
  simp only [buildBurnsByTx]
  exact foldl_insertLog_keys_nodup Dest.dead dead _
    (foldl_insertLog_keys_nodup Dest.firepit fire [] List.nodup_nil)

theorem buildBurnsByTx_fire_dest (fire dead : List TransferLog) (e : TxEntry)
    (he : e ∈ buildBurnsByTx fire dead)
    (hk : e.txHash ∈ fire.map (fun l => l.transactionHash)) :
    e.destination = Dest.firepit := by
  simp only [buildBurnsByTx] at he
  obtain ⟨l, hl, hlk⟩ := List.mem_map.mp hk
  have hkeys : e.txHash ∈
      ((fire.foldl (fun m l => insertLog m l Dest.firepit) []).map (fun x => x.txHash)) := by
    rw [← hlk]
    exact foldl_insertLog_keys_complete Dest.firepit fire [] l hl
  rcases mem_foldl_insertLog Dest.dead dead _ e he with hm1 | ⟨_, _, _, hnot⟩
  · rcases mem_foldl_insertLog Dest.firepit fire [] e hm1 with habs | ⟨hd, _, _, _⟩
    · cases habs
    · exact hd
  · exact absurd hkeys hnot

theorem scannerFireLogs_mem_bound (p : Provider) (fromBlock : Nat) (l : TransferLog)
    (hl : l ∈ scannerFireLogs p fromBlock) :
    (fromBlock ≤ l.blockNumber ∧ l.blockNumber ≤ p.head) ∧ l ∈ p.chainFire :=
  fetchLogsInChunks_mem_bound p.chainFire MAX_BLOCKS_PER_QUERY fromBlock p.head l hl

theorem scannerDeadLogs_mem_bound (p : Provider) (fromBlock : Nat) (l : TransferLog)
    (hl : l ∈ scannerDeadLogs p fromBlock) :
    (fromBlock ≤ l.blockNumber ∧ l.blockNumber ≤ p.head) ∧ l ∈ p.chainDead :=
  fetchLogsInChunks_mem_bound p.chainDead MAX_BLOCKS_PER_QUERY fromBlock p.head l hl

theorem fetchBurns_ok_block_bounds (p : Provider) (fromBlock : Nat) (burns : List BurnEvent)
    (hok : fetchBurnsSinceBlock p fromBlock = .ok burns) :
    ∀ b ∈ burns, fromBlock ≤ b.blockNumber ∧ b.blockNumber ≤ p.head := by
  intro b hb
  obtain ⟨e, he, henr⟩ := fetchBurns_ok_mem p fromBlock burns hok b hb
  obtain ⟨_, hbn, _, _⟩ := enrichEntry_some p e b henr
  have hebuild := (List.mem_filter.mp he).1
  obtain ⟨_, hlog⟩ := mem_buildBurnsByTx _ _ e hebuild
  rw [hbn]
  rcases hlog with ⟨_, hfire⟩ | ⟨_, hdead⟩
  · exact (scannerFireLogs_mem_bound p fromBlock e.log hfire).1
  · exact (scannerDeadLogs_mem_bound p fromBlock e.log hdead).1

/-! ## Scanner-cycle lemmas -/

theorem mem_saveBurn (store : List StoredBurn) (row r : StoredBurn)
    (hr : r ∈ saveBurn store row) : r ∈ store ∨ r = row := by
  rw [saveBurn] at hr
  by_cases h : isBurnNotified store row.txHash
  · rw [if_pos h] at hr
    exact Or.inl hr
  · rw [if_neg h] at hr
    rcases List.mem_append.mp hr with hm | hm
    · exact Or.inl hm
    · exact Or.inr (List.mem_singleton.mp hm)

theorem processBurnsLoop_setCalls (deliverOk : Nat → Bool) :
    ∀ (burns : List BurnEvent) (s : ScannerState) (t : CycleTrace),
      ∃ L, (processBurnsLoop deliverOk burns s t).2.setCalls = t.setCalls ++ L ∧
        L.Sublist (burns.map (fun b => b.blockNumber)) := by
  intro burns
  induction burns with
  | nil =>
    intro s t
    exact ⟨[], by simp [processBurnsLoop], List.nil_sublist _⟩
  | cons b rest ih =>
    intro s t
    simp only [processBurnsLoop]
    by_cases h : isBurnNotified s.store b.txHash
    · rw [if_pos h]
      obtain ⟨L, hL, hsub⟩ := ih s t
      refine ⟨L, hL, ?_⟩
      rw [List.map_cons]
      exact hsub.trans (List.sublist_cons_self _ _)
    · rw [if_neg h]
      obtain ⟨L, hL, hsub⟩ := ih _ ⟨t.deliverCalls ++ [b.txHash], t.setCalls ++ [b.blockNumber]⟩
      refine ⟨b.blockNumber :: L, ?_, ?_⟩
      · rw [hL]
        simp
      · rw [List.map_cons]
        exact hsub.cons₂ _

theorem processBurnsLoop_deliverCalls (deliverOk : Nat → Bool) :
    ∀ (burns : List BurnEvent) (s : ScannerState) (t : CycleTrace),
      ∀ k ∈ (processBurnsLoop deliverOk burns s t).2.deliverCalls,
        k ∈ t.deliverCalls ∨ k ∈ burns.map (fun b => b.txHash) := by
  intro burns
  induction burns with
  | nil =>
    intro s t k hk
    simp only [processBurnsLoop] at hk
    exact Or.inl hk
  | cons b rest ih =>
    intro s t k hk
    simp only [processBurnsLoop] at hk
    by_cases h : isBurnNotified s.store b.txHash
    · rw [if_pos h] at hk
      rcases ih s t k hk with h1 | h2
      · exact Or.inl h1
      · right
        rw [List.map_cons]
        exact List.mem_cons_of_mem _ h2
    · rw [if_neg h] at hk
      rcases ih _ _ k hk with h1 | h2
      · rcases List.mem_append.mp h1 with hh | hh
        · exact Or.inl hh
        · right
          rw [List.map_cons]
          exact List.mem_cons.mpr (Or.inl (List.mem_singleton.mp hh))
      · right
        rw [List.map_cons]
        exact List.mem_cons_of_mem _ h2

theorem processBurnsLoop_store (deliverOk : Nat → Bool) :
    ∀ (burns : List BurnEvent) (s : ScannerState) (t : CycleTrace),
      ∀ r ∈ (processBurnsLoop deliverOk burns s t).1.store,
        r ∈ s.store ∨ r.txHash ∈ burns.map (fun b => b.txHash) := by
  intro burns
  induction burns with
  | nil =>
    intro s t r hr
    simp only [processBurnsLoop] at hr
    exact Or.inl hr
  | cons b rest ih =>
    intro s t r hr
    simp only [processBurnsLoop] at hr
    by_cases h : isBurnNotified s.store b.txHash
    · rw [if_pos h] at hr
      rcases ih s t r hr with h1 | h2
      · exact Or.inl h1
      · right
        rw [List.map_cons]
        exact List.mem_cons_of_mem _ h2
    · rw [if_neg h] at hr
      rcases ih _ _ r hr with h1 | h2
      · by_cases hd : deliverOk b.txHash
        · rw [if_pos hd] at h1
          rcases mem_saveBurn s.store ⟨b.txHash, b.blockNumber⟩ r h1 with hm | hm
          · exact Or.inl hm
          · right
            rw [List.map_cons]
            rw [hm]
            exact List.mem_cons_self _ _
        · rw [if_neg hd] at h1
          exact Or.inl h1
      · right
        rw [List.map_cons]
        exact List.mem_cons_of_mem _ h2

theorem processNewBurns_cycle (p : Provider) (deliverOk : Nat → Bool) (headAtEnd : Nat)
    (s : ScannerState)
    (hc : ∀ c, s.lastProcessedBlock = some c → c ≤ p.head)
    (hhe : p.head ≤ headAtEnd) :
    List.Pairwise (· ≤ ·)
      (s.lastProcessedBlock.toList ++ (processNewBurns p deliverOk headAtEnd s).2.setCalls) ∧
    (∀ x ∈ (processNewBurns p deliverOk headAtEnd s).2.setCalls, x ≤ headAtEnd) ∧
    (((processNewBurns p deliverOk headAtEnd s).2.setCalls = [] ∧
        (processNewBurns p deliverOk headAtEnd s).1.lastProcessedBlock = s.lastProcessedBlock) ∨
      (processNewBurns p deliverOk headAtEnd s).1.lastProcessedBlock = some headAtEnd) := by
  cases hcp : s.lastProcessedBlock with
  | none =>
    simp only [processNewBurns, hcp]
    cases hfetch : fetchBurnsSinceBlock p (p.head - INITIAL_LOOKBACK_BLOCKS) with
    | error u => simp [hcp]
    | ok burns =>
      cases burns with
      | nil => simp [hcp]
      | cons b bs =>
        obtain ⟨L, hL, hsub⟩ :=
          processBurnsLoop_setCalls deliverOk (b :: bs) s ⟨[], []⟩
        have hbounds := fetchBurns_ok_block_bounds p _ _ hfetch
        have hsorted := fetchBurns_ok_sorted p _ _ hfetch
        have hLmem : ∀ x ∈ L, x ≤ p.head := by
          intro x hx
          obtain ⟨b', hb', hbx⟩ := List.mem_map.mp (hsub.subset hx)
          have := hbounds b' hb'
          omega
        have hLpair : List.Pairwise (· ≤ ·) L :=
          List.Pairwise.sublist hsub (List.pairwise_map.mpr hsorted)
        simp only [hcp, Option.toList, List.nil_append]
        refine ⟨?_, ?_, Or.inr trivial⟩
        · rw [hL, List.nil_append]
          rw [List.pairwise_append]
          refine ⟨hLpair, List.pairwise_singleton _ _, ?_⟩
          intro a ha b2 hb2
          rcases List.mem_singleton.mp hb2 with rfl
          have := hLmem a ha
          omega
        · intro x hx
          rw [hL, List.nil_append] at hx
          rcases List.mem_append.mp hx with hx | hx
          · have := hLmem x hx
            omega
          · rcases List.mem_singleton.mp hx with rfl
            omega
  | some c =>
    have hch : c ≤ p.head := hc c hcp
    simp only [processNewBurns, hcp]
    cases hfetch : fetchBurnsSinceBlock p (c + 1) with
    | error u => simp [hcp]
    | ok burns =>
      cases burns with
      | nil =>
        simp [hcp, List.pairwise_cons]
        omega
      | cons b bs =>
        obtain ⟨L, hL, hsub⟩ :=
          processBurnsLoop_setCalls deliverOk (b :: bs) s ⟨[], []⟩
        have hbounds := fetchBurns_ok_block_bounds p _ _ hfetch
        have hsorted := fetchBurns_ok_sorted p _ _ hfetch
        have hLmem : ∀ x ∈ L, c + 1 ≤ x ∧ x ≤ p.head := by
          intro x hx
          obtain ⟨b', hb', hbx⟩ := List.mem_map.mp (hsub.subset hx)
          have := hbounds b' hb'
          omega
        have hLpair : List.Pairwise (· ≤ ·) L :=
          List.Pairwise.sublist hsub (List.pairwise_map.mpr hsorted)
        simp only [hcp, Option.toList]
        refine ⟨?_, ?_, Or.inr trivial⟩
        · rw [hL, List.nil_append, List.singleton_append, List.pairwise_cons]
          constructor
          · intro x hx
            rcases List.mem_append.mp hx with hx | hx
            · have := hLmem x hx
              omega
            · rcases List.mem_singleton.mp hx with rfl
              omega
          · rw [List.pairwise_append]
            refine ⟨hLpair, List.pairwise_singleton _ _, ?_⟩
            intro a ha b2 hb2
            rcases List.mem_singleton.mp hb2 with rfl
            have := (hLmem a ha).2
            omega
        · intro x hx
          rw [hL, List.nil_append] at hx
          rcases List.mem_append.mp hx with hx | hx
          · have := (hLmem x hx).2
            omega
          · rcases List.mem_singleton.mp hx with rfl
            omega

theorem runCycles_monotone :
    ∀ (envs : List CycleEnv) (s : ScannerState),
      (∀ e ∈ envs, e.provider.head ≤ e.headAtEnd) →
      List.Chain' (fun a b => a.headAtEnd ≤ b.provider.head) envs →
      (∀ c, s.lastProcessedBlock = some c → ∀ e, envs.head? = some e → c ≤ e.provider.head) →
      List.Pairwise (· ≤ ·) (s.lastProcessedBlock.toList ++ (runCycles envs s).2) := by
  intro envs
  induction envs with
  | nil =>
    intro s _ _ _
    simp only [runCycles, List.append_nil]
    cases s.lastProcessedBlock <;> simp [Option.toList]
  | cons e rest ih =>
    intro s hhe hchain hinit
    have hc : ∀ c, s.lastProcessedBlock = some c → c ≤ e.provider.head :=
      fun c h => hinit c h e rfl
    obtain ⟨hA, hB, hC⟩ := processNewBurns_cycle e.provider e.deliverOk e.headAtEnd s hc
      (hhe e (List.mem_cons_self _ _))
    simp only [runCycles]
    set s1 := (processNewBurns e.provider e.deliverOk e.headAtEnd s).1 with hs1
    set t := (processNewBurns e.provider e.deliverOk e.headAtEnd s).2 with ht
    have hchain_head : ∀ e2, rest.head? = some e2 → e.headAtEnd ≤ e2.provider.head := by
      intro e2 he2
      cases rest with
      | nil => cases he2
      | cons r rs =>
        cases he2
        exact (List.chain'_cons.mp hchain).1
    have hinit1 : ∀ c, s1.lastProcessedBlock = some c →
        ∀ e2, rest.head? = some e2 → c ≤ e2.provider.head := by
      intro c hc1 e2 he2
      rcases hC with ⟨_, hsame⟩ | hend
      · rw [hsame] at hc1
        have h1 := hc c hc1
        have h2 := hhe e (List.mem_cons_self _ _)
        have h3 := hchain_head e2 he2
        omega
      · rw [hend] at hc1
        cases hc1
        exact hchain_head e2 he2
    have hIH := ih s1 (fun e2 h2 => hhe e2 (List.mem_cons_of_mem _ h2)) hchain.tail hinit1
    rw [← List.append_assoc, List.pairwise_append]
    refine ⟨hA, (List.pairwise_append.mp hIH).2.1, ?_⟩
    intro a ha b hb
    rcases hC with ⟨hempty, hsame⟩ | hend
    · rw [hempty, List.append_nil] at ha
      rw [hsame] at hIH
      cases hcp : s.lastProcessedBlock with
      | none =>
        rw [hcp] at ha
        cases ha
      | some c =>
        rw [hcp] at ha
        rcases List.mem_singleton.mp ha with rfl
        rw [hcp] at hIH
        exact (List.pairwise_append.mp hIH).2.2 a (List.mem_singleton_self a) b hb
    · have hbge : e.headAtEnd ≤ b := by
        rw [hend] at hIH
        exact (List.pairwise_append.mp hIH).2.2 e.headAtEnd (by simp [Option.toList]) b hb
      rcases List.mem_append.mp ha with ha | ha
      · cases hcp : s.lastProcessedBlock with
        | none =>
          rw [hcp] at ha
          cases ha
        | some c =>
          rw [hcp] at ha
          rcases List.mem_singleton.mp ha with rfl
          have h1 := hc a hcp
          have h2 := hhe e (List.mem_cons_self _ _)
          omega
      · have := hB a ha
        omega

/-! ## Claim theorems -/

/-- Claim C6: for every `fromBlock ≤ toBlock` and chunk limit,
`fetchLogsInChunks` partitions `[fromBlock, toBlock]` into consecutive,
disjoint sub-ranges covering exactly that interval, each of
inclusive-bound width at most the limit (a 25-block range with limit 9
yields [0-9],[10-19],[20-25]), queried in order, and its concatenated
result equals a single unchunked query over the whole range on an ideal
provider with a block-sorted stream. -/
theorem chunked_fetch_partition_and_single_query_equivalence
    (maxPerQuery fromBlock toBlock : Nat) (h : fromBlock ≤ toBlock)
    (chain : List TransferLog)
    (hs : chain.Pairwise (fun x y => x.blockNumber ≤ y.blockNumber)) :
    (∀ r ∈ chunkRanges maxPerQuery fromBlock toBlock,
        fromBlock ≤ r.1 ∧ r.1 ≤ r.2 ∧ r.2 ≤ toBlock ∧ r.2 - r.1 ≤ maxPerQuery) ∧
    (chunkRanges maxPerQuery fromBlock toBlock).Pairwise (fun r s => r.2 < s.1) ∧
    (∀ b, fromBlock ≤ b → b ≤ toBlock →
        ∃ r ∈ chunkRanges maxPerQuery fromBlock toBlock, r.1 ≤ b ∧ b ≤ r.2) ∧
    (∀ g : Nat → Nat → List TransferLog,
        fetchLogsInChunks g maxPerQuery fromBlock toBlock
          = (chunkRanges maxPerQuery fromBlock toBlock).flatMap (fun r => g r.1 r.2)) ∧
    chunkRanges 9 0 25 = [(0, 9), (10, 19), (20, 25)] ∧
    fetchLogsInChunks (idealGetLogs chain) maxPerQuery fromBlock toBlock
      = idealGetLogs chain fromBlock toBlock := by
  refine ⟨chunkRanges_mem maxPerQuery fromBlock toBlock,
    chunkRanges_ordered maxPerQuery fromBlock toBlock,
    chunkRanges_cover maxPerQuery fromBlock toBlock,
    fun g => fetchLogsInChunks_eq_flatMap g maxPerQuery fromBlock toBlock,
    by simp [chunkRanges], ?_⟩
  rw [fetchLogsInChunks_eq_single chain hs maxPerQuery fromBlock toBlock, if_pos h]

/-- Witness for C6 at a concrete instance: a 25-block range, limit 9,
over a concrete sorted two-log chain. -/
theorem chunked_fetch_witness :
    fetchLogsInChunks
        (idealGetLogs [⟨5, 3, some 1, some 4⟩, ⟨6, 12, some 1, some 7⟩]) 9 0 25
      = idealGetLogs [⟨5, 3, some 1, some 4⟩, ⟨6, 12, some 1, some 7⟩] 0 25 :=
  (chunked_fetch_partition_and_single_query_equivalence 9 0 25 (by decide)
    [⟨5, 3, some 1, some 4⟩, ⟨6, 12, some 1, some 7⟩] (by decide)).2.2.2.2.2

/-- Counterexample to claim C2: with head = 5 and a qualifying log at
block 5, `fetchBurnsSinceBlock` called with `fromBlock = 5` (equal to
the head, so `fromBlock ≤ head`) returns `[]`, even though scanning the
single-block range [5, 5] would return the log — the code's guard is
`fromBlock >= currentBlock`, not `>`. -/
theorem fetchBurns_head_range_skipped_counterexample :
    fetchBurnsSinceBlock
        ⟨5, [⟨7, 5, some 1, some 4⟩], [], fun _ => some ⟨1⟩, fun _ => 0⟩ 5 = .ok [] ∧
    fetchLogsInChunks
        (idealGetLogs (Provider.chainFire
          ⟨5, [⟨7, 5, some 1, some 4⟩], [], fun _ => some ⟨1⟩, fun _ => 0⟩))
        MAX_BLOCKS_PER_QUERY 5 5
      = [⟨7, 5, some 1, some 4⟩] := by
  constructor
  · simp [fetchBurnsSinceBlock]
  · simp [fetchLogsInChunks, idealGetLogs, MAX_BLOCKS_PER_QUERY]

/-- Claim C2 (amended): `fetchBurnsSinceBlock` is a no-op (`.ok []`,
never an error) exactly when `fromBlock ≥ head` — the single-block range
`fromBlock = head` is skipped, not scanned; for `fromBlock < head` it
runs the chunked fetch for both sinks over `[fromBlock, head]`, which on
a block-sorted ideal provider equals the same pipeline over one single
unchunked query per sink. -/
theorem fetchBurns_noop_boundary_and_refinement (p : Provider) (fromBlock : Nat)
    (hsf : p.chainFire.Pairwise (fun x y => x.blockNumber ≤ y.blockNumber))
    (hsd : p.chainDead.Pairwise (fun x y => x.blockNumber ≤ y.blockNumber)) :
    (fromBlock ≥ p.head → fetchBurnsSinceBlock p fromBlock = .ok []) ∧
    fetchBurnsSinceBlock p fromBlock = fetchBurnsSingleQuery p fromBlock := by
  constructor
  · intro h
    simp [fetchBurnsSinceBlock, h]
  · by_cases h : fromBlock ≥ p.head
    · simp [fetchBurnsSinceBlock, fetchBurnsSingleQuery, h]
    · have hle : fromBlock ≤ p.head := by omega
      simp only [fetchBurnsSinceBlock, fetchBurnsSingleQuery, burnEntries, scannerFireLogs,
        scannerDeadLogs, if_neg h]
      rw [fetchLogsInChunks_eq_single p.chainFire hsf MAX_BLOCKS_PER_QUERY fromBlock p.head,
        fetchLogsInChunks_eq_single p.chainDead hsd MAX_BLOCKS_PER_QUERY fromBlock p.head,
        if_pos hle, if_pos hle]

/-- Witness for the amended C2 at a concrete provider (both the `≥`
no-op and the single-query refinement at `fromBlock = 1 < head = 5`). -/
theorem fetchBurns_noop_boundary_witness :
    fetchBurnsSinceBlock
        ⟨5, [⟨7, 3, some 1, some 4⟩], [], fun _ => some ⟨1⟩, fun _ => 0⟩ 5 = .ok [] ∧
    fetchBurnsSinceBlock
        ⟨5, [⟨7, 3, some 1, some 4⟩], [], fun _ => some ⟨1⟩, fun _ => 0⟩ 1
      = fetchBurnsSingleQuery
        ⟨5, [⟨7, 3, some 1, some 4⟩], [], fun _ => some ⟨1⟩, fun _ => 0⟩ 1 :=
  ⟨(fetchBurns_noop_boundary_and_refinement _ 5 (by decide) (by decide)).1 (by decide),
    (fetchBurns_noop_boundary_and_refinement _ 1 (by decide) (by decide)).2⟩

/-- Claim C7: reconciliation yields at most one burn event per
transaction hash — the output's hash list has no duplicates (each hash
has count ≤ 1) — and any surviving event whose hash appears in the
fetched firepit stream has destination `firepit` (the first-registered
destination wins over the dead stream). -/
theorem reconciliation_at_most_one_destination
    (p : Provider) (fromBlock : Nat) (burns : List BurnEvent)
    (hok : fetchBurnsSinceBlock p fromBlock = .ok burns) :
    ((burns.map (fun b => b.txHash)).Nodup ∧
      ∀ k, (burns.map (fun b => b.txHash)).count k ≤ 1) ∧
    ∀ b ∈ burns,
      b.txHash ∈ (scannerFireLogs p fromBlock).map (fun l => l.transactionHash) →
      b.destination = Dest.firepit := by
  have hnodup : (burns.map (fun b => b.txHash)).Nodup := by
    rcases fetchBurns_ok_cases p fromBlock burns hok with ⟨_, rfl⟩ | ⟨_, bs, hall, rfl⟩
    · simp
    · have hmapperm : ((sortByBlock bs).map (fun b => b.txHash)).Perm
          (bs.map (fun b => b.txHash)) := (sortByBlock_perm bs).map _
      rw [hmapperm.nodup_iff]
      have hmapeq : bs.map (fun b => b.txHash)
          = (burnEntries p fromBlock).map (fun e => e.txHash) :=
        forall₂_map_eq _ _ (fun a b hab => (enrichEntry_some p a b hab).1)
          (allResolved_forall₂ _ _ _ hall)
      rw [hmapeq]
      have hsub : (burnEntries p fromBlock).Sublist
          (buildBurnsByTx (scannerFireLogs p fromBlock) (scannerDeadLogs p fromBlock)) := by
        simp only [burnEntries]
        exact List.filter_sublist _
      exact List.Nodup.sublist (hsub.map _) (buildBurnsByTx_keys_nodup _ _)
  refine ⟨⟨hnodup, fun k => List.nodup_iff_count_le_one.mp hnodup k⟩, ?_⟩
  intro b hb hk
  obtain ⟨e, he, henr⟩ := fetchBurns_ok_mem p fromBlock burns hok b hb
  obtain ⟨hkey, _, hdest, _⟩ := enrichEntry_some p e b henr
  simp only [burnEntries] at he
  have hebuild := (List.mem_filter.mp he).1
  rw [hdest]
  apply buildBurnsByTx_fire_dest _ _ e hebuild
  rw [← hkey]
  exact hk

/-- Witness for C7: a transaction (hash 5) whose log appears in both
sink streams survives exactly once with destination firepit. -/
theorem reconciliation_witness :
    fetchBurnsSinceBlock
        ⟨4, [⟨5, 2, some 1, some 6⟩], [⟨5, 2, some 1, some 6⟩, ⟨6, 3, some 2, some 8⟩],
          fun _ => some ⟨1⟩, fun _ => 0⟩ 1
      = .ok [⟨5, 2, 0, 6, 1, Dest.firepit⟩, ⟨6, 3, 0, 8, 1, Dest.dead⟩] ∧
    ([⟨5, 2, 0, 6, 1, Dest.firepit⟩, ⟨6, 3, 0, 8, 1, Dest.dead⟩].map
        (fun b => BurnEvent.txHash b)).count 5 ≤ 1 ∧
    (⟨5, 2, 0, 6, 1, Dest.firepit⟩ : BurnEvent).destination = Dest.firepit := by
  have hok : fetchBurnsSinceBlock
      ⟨4, [⟨5, 2, some 1, some 6⟩], [⟨5, 2, some 1, some 6⟩, ⟨6, 3, some 2, some 8⟩],
        fun _ => some ⟨1⟩, fun _ => 0⟩ 1
      = .ok [⟨5, 2, 0, 6, 1, Dest.firepit⟩, ⟨6, 3, 0, 8, 1, Dest.dead⟩] := by
    simp [fetchBurnsSinceBlock, burnEntries, scannerFireLogs, scannerDeadLogs,
      fetchLogsInChunks, idealGetLogs, MAX_BLOCKS_PER_QUERY, buildBurnsByTx, insertLog,
      jsTruthyValue, jsTruthyAddr, allResolved, enrichEntry, sortByBlock, insertByBlock]
  have h := reconciliation_at_most_one_destination _ 1 _ hok
  refine ⟨hok, h.1.2 5, ?_⟩
  apply h.2 ⟨5, 2, 0, 6, 1, Dest.firepit⟩ (by simp)
  simp [scannerFireLogs, fetchLogsInChunks, idealGetLogs, MAX_BLOCKS_PER_QUERY]

/-- Counterexample to claim C8: two transactions in the batch, the
transaction-data lookup rejects for hash 1 only, yet the whole
`fetchBurnsSinceBlock` call fails — transaction 2 is not returned, so
one enrichment failure does abort processing of the others
(`Promise.all` rejects as a whole). -/
theorem enrichment_failure_aborts_batch_counterexample :
    fetchBurnsSinceBlock
        ⟨4, [⟨1, 2, some 1, some 5⟩], [⟨2, 3, some 1, some 6⟩],
          fun h => if h == 1 then none else some ⟨9⟩, fun _ => 0⟩ 1
      = .error () := by
  simp [fetchBurnsSinceBlock, burnEntries, scannerFireLogs, scannerDeadLogs,
    fetchLogsInChunks, idealGetLogs, MAX_BLOCKS_PER_QUERY, buildBurnsByTx, insertLog,
    jsTruthyValue, jsTruthyAddr, allResolved, enrichEntry]

/-- Claim C8 (amended): when the transaction-data lookup fails for any
one surviving entry of the batch, the whole `fetchBurnsSinceBlock` call
rejects (`Promise.all` semantics): it returns an error and none of the
other transactions of the batch are returned; the enclosing poll
cycle's `catch` then retries the entire range next cycle. -/
theorem enrichment_failure_rejects_whole_batch (p : Provider) (fromBlock : Nat)
    (hlt : fromBlock < p.head) (e : TxEntry)
    (he : e ∈ burnEntries p fromBlock) (hfail : p.txData e.txHash = none) :
    fetchBurnsSinceBlock p fromBlock = .error () := by
  have hnone : allResolved (enrichEntry p) (burnEntries p fromBlock) = none :=
    allResolved_eq_none _ _ e he (by simp [enrichEntry, hfail])
  simp only [fetchBurnsSinceBlock]
  rw [if_neg (by omega : ¬ fromBlock ≥ p.head), hnone]

/-- Witness for the amended C8 at the concrete two-transaction
provider. -/
theorem enrichment_failure_witness :
    fetchBurnsSinceBlock
        ⟨4, [⟨1, 2, some 1, some 5⟩], [⟨2, 3, some 1, some 6⟩],
          fun h => if h == 1 then none else some ⟨9⟩, fun _ => 0⟩ 1
      = .error () :=
  enrichment_failure_rejects_whole_batch _ 1 (by decide)
    ⟨1, ⟨1, 2, some 1, some 5⟩, Dest.firepit⟩
    (by simp [burnEntries, scannerFireLogs, scannerDeadLogs, fetchLogsInChunks,
      idealGetLogs, MAX_BLOCKS_PER_QUERY, buildBurnsByTx, insertLog,
      jsTruthyValue, jsTruthyAddr])
    (by simp)

/-- Claim C10: a well-formed sink-directed Transfer log whose decoded
value is zero is silently dropped by the truthiness filter — the
scanner's output never contains a zero-amount event (so it is neither
persisted nor delivered: the loop only delivers hashes and stores rows
of events in its input list), and the backfill classifies the log as
`error` without touching the store, exactly as it does a missing
field. -/
theorem zero_value_transfers_silently_dropped :
    (∀ (p : Provider) (fromBlock : Nat) (burns : List BurnEvent),
        fetchBurnsSinceBlock p fromBlock = .ok burns →
        ∀ b ∈ burns, b.uniAmountRaw ≠ 0) ∧
    (∀ (env : BackfillEnv) (store : List StoredBurn) (l : TransferLog),
        l.argsValue = some 0 ∨ l.argsValue = none →
        processAndSaveBurn env store l = (SaveResult.error, store)) ∧
    (∀ (deliverOk : Nat → Bool) (burns : List BurnEvent) (s : ScannerState) (t : CycleTrace),
        (∀ k ∈ (processBurnsLoop deliverOk burns s t).2.deliverCalls,
          k ∈ t.deliverCalls ∨ k ∈ burns.map (fun b => b.txHash)) ∧
        (∀ r ∈ (processBurnsLoop deliverOk burns s t).1.store,
          r ∈ s.store ∨ r.txHash ∈ burns.map (fun b => b.txHash))) := by
  refine ⟨?_, ?_, ?_⟩
  · intro p fromBlock burns hok b hb
    obtain ⟨e, he, henr⟩ := fetchBurns_ok_mem p fromBlock burns hok b hb
    obtain ⟨_, _, _, hraw⟩ := enrichEntry_some p e b henr
    simp only [burnEntries] at he
    have hpred := (List.mem_filter.mp he).2
    rw [Bool.and_eq_true] at hpred
    cases hv : e.log.argsValue with
    | none => rw [hv] at hpred; exact absurd hpred.1 (by simp [jsTruthyValue])
    | some v =>
      rw [hv] at hpred
      have hv0 : v ≠ 0 := by
        have := hpred.1
        simpa [jsTruthyValue] using this
      rw [hraw, hv]
      simpa using hv0
  · intro env store l hl
    rcases hl with hv | hv <;>
      simp [processAndSaveBurn, hv, jsTruthyValue]
  · intro deliverOk burns s t
    exact ⟨processBurnsLoop_deliverCalls deliverOk burns s t,
      processBurnsLoop_store deliverOk burns s t⟩

/-- Witness for C10: a zero-value log (hash 8) alongside a nonzero one
(hash 9): the pipeline returns only the nonzero event, whose raw amount
the claim theorem certifies as nonzero, and the backfill classifies the
zero-value log as `error`, leaving the store empty. -/
theorem zero_value_witness :
    fetchBurnsSinceBlock
        ⟨4, [⟨8, 2, some 1, some 0⟩, ⟨9, 3, some 1, some 5⟩], [],
          fun _ => some ⟨1⟩, fun _ => 0⟩ 1
      = .ok [⟨9, 3, 0, 5, 1, Dest.firepit⟩] ∧
    (⟨9, 3, 0, 5, 1, Dest.firepit⟩ : BurnEvent).uniAmountRaw ≠ 0 ∧
    processAndSaveBurn ⟨[], [], fun _ _ => false, fun _ => true⟩ []
        ⟨8, 2, some 1, some 0⟩ = (SaveResult.error, []) := by
  have hok : fetchBurnsSinceBlock
      ⟨4, [⟨8, 2, some 1, some 0⟩, ⟨9, 3, some 1, some 5⟩], [],
        fun _ => some ⟨1⟩, fun _ => 0⟩ 1
      = .ok [⟨9, 3, 0, 5, 1, Dest.firepit⟩] := by
    simp [fetchBurnsSinceBlock, burnEntries, scannerFireLogs, scannerDeadLogs,
      fetchLogsInChunks, idealGetLogs, MAX_BLOCKS_PER_QUERY, buildBurnsByTx, insertLog,
      jsTruthyValue, jsTruthyAddr, allResolved, enrichEntry, sortByBlock, insertByBlock]
  refine ⟨hok, ?_, ?_⟩
  · exact zero_value_transfers_silently_dropped.1 _ 1 _ hok
      ⟨9, 3, 0, 5, 1, Dest.firepit⟩ (by simp)
  · exact zero_value_transfers_silently_dropped.2.1 _ [] _ (Or.inl rfl)

/-- Claim C9: the checkpoint is monotonically non-decreasing — assuming
every chain-head observation across the run is non-decreasing (within
each cycle and between consecutive cycles) and the initial checkpoint
does not exceed the first observed head, the sequence of values the
scanner passes to `setLastProcessedBlock`, prefixed by the initial
checkpoint, is non-decreasing; since each call makes its argument the
stored checkpoint, every call's value is ≥ the checkpoint stored at the
time of the call. -/
theorem checkpoint_monotone_nondecreasing
    (envs : List CycleEnv) (s : ScannerState)
    (hheads : ∀ e ∈ envs, e.provider.head ≤ e.headAtEnd)
    (hcross : List.Chain' (fun a b => a.headAtEnd ≤ b.provider.head) envs)
    (hinit : ∀ c, s.lastProcessedBlock = some c →
      ∀ e, envs.head? = some e → c ≤ e.provider.head) :
    List.Pairwise (· ≤ ·) (s.lastProcessedBlock.toList ++ (runCycles envs s).2) :=
  runCycles_monotone envs s hheads hcross hinit

/-- Witness for C9: two cycles (heads 9 then 11, cycle-final heads 10
and 12) from checkpoint 3, one delivered burn at block 5. -/
theorem checkpoint_monotone_witness :
    List.Pairwise (· ≤ ·) ((some 3 : Option Nat).toList ++
      (runCycles
        [⟨⟨9, [⟨1, 5, some 1, some 2⟩], [], fun _ => some ⟨1⟩, fun _ => 0⟩, 10, fun _ => true⟩,
         ⟨⟨11, [], [], fun _ => some ⟨1⟩, fun _ => 0⟩, 12, fun _ => true⟩]
        ⟨[], some 3⟩).2) := by
  exact checkpoint_monotone_nondecreasing
    [⟨⟨9, [⟨1, 5, some 1, some 2⟩], [], fun _ => some ⟨1⟩, fun _ => 0⟩, 10, fun _ => true⟩,
     ⟨⟨11, [], [], fun _ => some ⟨1⟩, fun _ => 0⟩, 12, fun _ => true⟩]
    ⟨[], some 3⟩
    (by
      intro e he
      rcases List.mem_cons.mp he with rfl | he
      · decide
      · rcases List.mem_cons.mp he with rfl | he
        · decide
        · cases he)
    (List.chain'_cons.mpr ⟨by decide, List.chain'_singleton _⟩)
    (by
      intro c hc e he
      cases hc
      cases he
      decide)

/-- Claim C1 is violated by the code (code bug): with checkpoint 0,
delivery failing for the burn at block 3 (hash 1) and succeeding for
the burn at block 7 (hash 2), the cycle still calls
`setLastProcessedBlock(3)` for the failed event (the call sits outside
the `try`/`catch`) and unconditionally advances to the cycle-final head
15 — the final checkpoint is 15, not ≤ 2, so the failed event at block
3 will never be refetched; only the non-persistence half of the claim
holds (hash 1 is absent from the store). -/
theorem checkpoint_advanced_past_failed_delivery :
    processNewBurns
        ⟨12, [⟨1, 3, some 1, some 5⟩], [⟨2, 7, some 1, some 6⟩],
          fun _ => some ⟨3⟩, fun _ => 0⟩
        (fun h => h == 2) 15 ⟨[], some 0⟩
      = (⟨[⟨2, 7⟩], some 15⟩, ⟨[1, 2], [3, 7, 15]⟩) ∧
    ¬ ((15 : Nat) ≤ 3 - 1) := by
  constructor
  · simp [processNewBurns, fetchBurnsSinceBlock, burnEntries, scannerFireLogs,
      scannerDeadLogs, fetchLogsInChunks, idealGetLogs, MAX_BLOCKS_PER_QUERY,
      buildBurnsByTx, insertLog, jsTruthyValue, jsTruthyAddr, allResolved, enrichEntry,
      sortByBlock, insertByBlock, processBurnsLoop, isBurnNotified, saveBurn,
      INITIAL_LOOKBACK_BLOCKS]
  · decide

/-- Claim C3 is violated by the code (code bug): `processNewBurns`
takes no threshold at all — `config.amountThreshold` is loaded but
never consulted.  For a burn of raw amount 1 (far below the default
threshold of 4000 UNI in wei), the cycle attempts delivery
(`deliverCalls = [9]`), and when delivery fails the event is not
persisted either — the claim's "persisted but not delivered" behaviour
does not exist in the code. -/
theorem threshold_not_consulted_by_scanner :
    processNewBurns
        ⟨4, [⟨9, 2, some 1, some 1⟩], [], fun _ => some ⟨1⟩, fun _ => 0⟩
        (fun _ => false) 4 ⟨[], some 0⟩
      = (⟨[], some 4⟩, ⟨[9], [2, 4]⟩) := by
  simp [processNewBurns, fetchBurnsSinceBlock, burnEntries, scannerFireLogs,
    scannerDeadLogs, fetchLogsInChunks, idealGetLogs, MAX_BLOCKS_PER_QUERY,
    buildBurnsByTx, insertLog, jsTruthyValue, jsTruthyAddr, allResolved, enrichEntry,
    sortByBlock, insertByBlock, processBurnsLoop, isBurnNotified, saveBurn,
    INITIAL_LOOKBACK_BLOCKS]

theorem backfillLoop_retry_shift (env : BackfillEnv) (maxQ currentBlock f : Nat)
    (acc : Nat × Nat × List StoredBurn) :
    ∀ k a0 fuel, (∀ a, a0 ≤ a → a < a0 + k → env.fetchFails f a = true) →
      f ≤ currentBlock →
      backfillLoop env maxQ currentBlock f a0 acc (fuel + k)
        = backfillLoop env maxQ currentBlock f (a0 + k) acc fuel := by
  intro k
  induction k with
  | zero => intro a0 fuel _ _; rfl
  | succ n ihk =>
    intro a0 fuel hfail hle
    have hstep : backfillLoop env maxQ currentBlock f a0 acc (fuel + (n + 1))
        = backfillLoop env maxQ currentBlock f (a0 + 1) acc (fuel + n) := by
      show backfillLoop env maxQ currentBlock f a0 acc ((fuel + n) + 1) = _
      simp only [backfillLoop]
      rw [if_neg (by omega : ¬ f > currentBlock), if_pos (hfail a0 (by omega) (by omega))]
    rw [hstep, ihk (a0 + 1) fuel (fun a h1 h2 => hfail a (by omega) (by omega)) hle]
    have heq : a0 + 1 + n = a0 + (n + 1) := by omega
    rw [heq]

theorem backfillLoop_always_failing_never_completes (env : BackfillEnv)
    (maxQ currentBlock f : Nat) (hle : f ≤ currentBlock)
    (hfail : ∀ a, env.fetchFails f a = true) :
    ∀ (fuel attempt : Nat) (acc : Nat × Nat × List StoredBurn),
      backfillLoop env maxQ currentBlock f attempt acc fuel = none := by
  intro fuel
  induction fuel with
  | zero => intro attempt acc; rfl
  | succ n ihf =>
    intro attempt acc
    simp only [backfillLoop]
    rw [if_neg (by omega : ¬ f > currentBlock), if_pos (hfail attempt)]
    exact ihf (attempt + 1) acc

/-- Counterexample to claim C4: the chunk starting at block 0 fails on
its first two attempts (a second consecutive failure, which the claim
says aborts the run), yet the run completes normally on the third
attempt — the chunk's event is fetched and saved, and the summary is
returned. The `catch` merely rewinds `fromBlock`, keeping no retry
counter and having no abort path. -/
theorem backfill_second_failure_not_fatal_counterexample :
    backfillBurns
        ⟨[⟨3, 2, some 1, some 5⟩], [], fun f a => f == 0 && a < 2, fun _ => true⟩
        0 5 [] 10
      = some (1, 0, [⟨3, 2⟩]) := by
  rfl

/-- Claim C4 (amended): a chunk whose fetch fails is retried after the
fixed backoff, but with no retry counter and no abort path: k
consecutive failures just shift the loop to its (k+1)-th attempt of the
same chunk (the run is never aborted), and a persistently failing chunk
is never skipped — the loop stays on it forever, no fuel bound
completing the run. -/
theorem backfill_failed_chunk_retried_indefinitely (env : BackfillEnv)
    (maxQ currentBlock f : Nat) (acc : Nat × Nat × List StoredBurn) (k fuel : Nat)
    (hk : ∀ a, a < k → env.fetchFails f a = true) (hle : f ≤ currentBlock) :
    backfillLoop env maxQ currentBlock f 0 acc (fuel + k)
      = backfillLoop env maxQ currentBlock f k acc fuel ∧
    ((∀ a, env.fetchFails f a = true) →
      ∀ (fuel2 attempt : Nat) (acc2 : Nat × Nat × List StoredBurn),
        backfillLoop env maxQ currentBlock f attempt acc2 fuel2 = none) := by
  constructor
  · have h := backfillLoop_retry_shift env maxQ currentBlock f acc k 0 fuel
      (fun a h1 h2 => hk a (by omega)) hle
    simpa using h
  · intro hall fuel2 attempt acc2
    exact backfillLoop_always_failing_never_completes env maxQ currentBlock f hle hall
      fuel2 attempt acc2

/-- Witness for the amended C4 on a chunk that always fails: two
failures shift the loop two attempts without aborting, and no fuel
completes the run. -/
theorem backfill_retry_witness :
    backfillLoop ⟨[], [], fun _ _ => true, fun _ => true⟩ 10 5 0 0 (0, 0, []) (8 + 2)
      = backfillLoop ⟨[], [], fun _ _ => true, fun _ => true⟩ 10 5 0 2 (0, 0, []) 8 ∧
    backfillLoop ⟨[], [], fun _ _ => true, fun _ => true⟩ 10 5 0 0 (0, 0, []) 7 = none := by
  have h := backfill_failed_chunk_retried_indefinitely
    ⟨[], [], fun _ _ => true, fun _ => true⟩ 10 5 0 (0, 0, []) 2 8
    (fun a _ => rfl) (by decide)
  exact ⟨h.1, h.2 (fun a => rfl) 7 0 (0, 0, [])⟩

/-- Claim C5 is violated by the code (code bug): running the backfill a
second time over the same range does leave the store identical — but
the second run's summary reports saved-count 1 and skipped-count 0 for
the one qualifying (already-present) event, not saved 0 / skipped 1:
`saveBurn`'s `ON CONFLICT DO NOTHING` insert returns normally on a
duplicate, so the `catch` branch looking for a "UNIQUE constraint"
message — the only producer of `skipped` — is unreachable. -/
theorem backfill_second_run_reports_saved_not_skipped :
    backfillBurns
        ⟨[⟨3, 2, some 1, some 5⟩], [], fun _ _ => false, fun _ => true⟩ 0 5 [] 10
      = some (1, 0, [⟨3, 2⟩]) ∧
    backfillBurns
        ⟨[⟨3, 2, some 1, some 5⟩], [], fun _ _ => false, fun _ => true⟩ 0 5 [⟨3, 2⟩] 10
      = some (1, 0, [⟨3, 2⟩]) := by
  constructor <;> rfl
